import Mathlib

/-!
Verification of the path/version resolver utilities of `bob.extension`
(`uniq`, `find_file`, `find_header`, `find_library`, `egrep`,
`load_requirements`).

The repository ships only `setup.py` and the test module
`bob/extension/test_utils.py`; the implementation module
`bob/extension/utils.py` that the tests import is not present.  Every
operation below is therefore modelled from the description in the specification
of that module (each doc comment says so explicitly), and the tests are
used as concrete anchors.

Modelling choices:
* a text stream is its list of lines (`List String`);
* a filesystem path is its list of components (`Path := List String`),
  so that joining paths is list append, exactly `os.path.join` on
  relative component strings;
* a filesystem is the ordered list of paths of the files that exist
  (`List Path`); `glob` returns the existing paths matching a pattern,
  in filesystem order;
* a compiled regular expression is abstracted as its matching function
  `String → Option μ`, where `μ` is the type of match objects, and the
  readability of a file is an `Option (List String)` (its lines, when the
  file exists and is readable).
-/

namespace BobExtension

/-- Modelled from the spec (§4.1, `utils.py` absent from the sources):
single-pass deduplication keeping the first occurrence of each value.
`uniqAux seen l` keeps the elements of `l` that are not in `seen`,
recording each kept element as seen. -/
def uniqAux {α : Type} [DecidableEq α] (seen : List α) : List α → List α
  | [] => []
  | x :: xs => if x ∈ seen then uniqAux seen xs else x :: uniqAux (x :: seen) xs

/-- Modelled from the spec (§4.1): `uniq(seq)` returns a new ordered
sequence containing each distinct value once, in order of first
occurrence. -/
def uniq {α : Type} [DecidableEq α] (seq : List α) : List α := uniqAux [] seq

/-- Declarative restatement of the wording of the spec for `uniq` (§4.1): keep
the head, then deduplicate the tail and drop later copies of the head.
Used to state that `uniq` returns each distinct value once in order of
first occurrence. -/
def uniqSpec {α : Type} [DecidableEq α] : List α → List α
  | [] => []
  | x :: xs => x :: (uniqSpec xs).filter (fun y => y != x)

/-- Strip the surrounding whitespace of one line, on the character list of
the string (the model of the Python `str.strip()` method). -/
def stripLine (s : String) : String :=
  ((s.toList.dropWhile Char.isWhitespace).reverse.dropWhile Char.isWhitespace).reverse.asString

/-- A stripped line is kept when it is non-empty and its first character
(its first non-whitespace character before stripping) is not the comment
marker. -/
def keepLine (l : String) : Bool :=
  match l.toList with
  | [] => false
  | c :: _ => c != '#'

/-- A line that is empty (after stripping, the spec wording "empty after
stripping"). -/
def isBlank (s : String) : Bool := s.toList.isEmpty

/-- A line whose first character is the comment marker (after stripping,
this is the spec wording "first non-whitespace character is a comment
marker"). -/
def isComment (s : String) : Bool :=
  match s.toList with
  | [] => false
  | c :: _ => c == '#'

/-- Modelled from the spec (§4.6, `utils.py` absent from the sources):
`load_requirements` reads the stream line by line, strips surrounding
whitespace, and keeps, in order and without deduplication, the lines that
are non-empty and do not start with `#`. -/
def load_requirements (lines : List String) : List String :=
  (lines.map stripLine).filter keepLine

/-- A filesystem path, as its list of components. -/
abbrev Path := List String

/-- Glob matching of one pattern component against one name component:
`*` matches any sequence of characters, `?` matches any single character,
anything else matches itself.  Structural recursion on the pattern; a `*`
tries every suffix of the candidate. -/
def wildMatch : List Char → List Char → Bool
  | [], cs => cs.isEmpty
  | p :: ps, cs =>
    if p = '*' then cs.tails.any (fun suffix => wildMatch ps suffix)
    else
      match cs with
      | [] => false
      | c :: cs2 => (p == '?' || p == c) && wildMatch ps cs2

/-- One path component of a glob pattern matched against one path
component of an existing file. -/
def compMatch (pat comp : String) : Bool := wildMatch pat.toList comp.toList

/-- A glob pattern matches a path when they have the same number of
components and each pattern component matches the corresponding path
component. -/
def pathMatches : Path → Path → Bool
  | [], [] => true
  | p :: ps, c :: cs => compMatch p c && pathMatches ps cs
  | _, _ => false

/-- Modelled from the spec (§4.2): expanding a (possibly wildcarded)
pattern against the filesystem returns the existing paths that match, in
filesystem order ("whatever order the filesystem glob returns"). -/
def glob (fs : List Path) (pattern : Path) : List Path :=
  fs.filter (fun f => pathMatches pattern f)

/-- Modelled from the spec (§4.2, `utils.py` absent from the sources):
`find_file(name, paths, subpaths)` deduplicates the search roots
preserving first-seen order, then for every `(root, subpath)` combination
in the given order globs `root/subpath/name`, concatenating all matches
into one ordered list. -/
def find_file (fs : List Path) (name : Path) (paths : List Path) (subpaths : List Path) : List Path :=
  (uniq paths).flatMap (fun root => subpaths.flatMap (fun sub => glob fs (root ++ sub ++ name)))

/-- Modelled from the spec (§4.3, `utils.py` absent from the sources):
`find_header` is the thin specialization of `find_file` that searches the
`include` directory of every root, so that the standard include
directories are the `include` subdirectories of the roots. -/
def find_header (fs : List Path) (name : Path) (paths : List Path) (subpaths : List Path) : List Path :=
  find_file fs name paths (subpaths.map (fun sub => "include" :: sub))

/-- Platform-conventional static archive name for a library base name. -/
def staticLibName (name : String) : String := "lib" ++ name ++ ".a"

/-- Platform-conventional unversioned shared-object name for a library
base name. -/
def sharedLibName (name : String) : String := "lib" ++ name ++ ".so"

/-- Platform-conventional shared-object name carrying an exact version
suffix. -/
def sharedVersionedLibName (name version : String) : String :=
  "lib" ++ name ++ ".so." ++ version

/-- Modelled from the spec (§4.4, `utils.py` absent from the sources):
the filename patterns synthesized for a library base name.  Without a
version: the static archive first, then the unversioned shared object.
With a version: only the naming variant of that exact version, the shared
object carrying the version suffix (static archives carry no version
suffix, so no unversioned name is searched). -/
def libraryNamePatterns (name : String) (version : Option String) : List String :=
  match version with
  | some v => [sharedVersionedLibName name v]
  | none => [staticLibName name, sharedLibName name]

/-- Modelled from the spec (§4.4, `utils.py` absent from the sources):
`find_library` synthesizes the conventional filename patterns for the
base name and optional version and delegates each to the generic finder
over the library search roots, concatenating the results in pattern
order. -/
def find_library (fs : List Path) (name : String) (version : Option String) (paths : List Path) : List Path :=
  (libraryNamePatterns name version).flatMap (fun pat => find_file fs [pat] paths [[]])

/-- Whether the last component of a path matches a filename pattern. -/
def lastComponentMatches (pat : String) (p : Path) : Bool :=
  match p.getLast? with
  | some c => compMatch pat c
  | none => false

/-- The failure signal of `egrep` on an unreadable path: the platform
standard I/O error, propagated unchanged. -/
inductive IOFailure : Type
  | fileAccess : IOFailure
deriving DecidableEq

/-- Modelled from the spec (§4.5, `utils.py` absent from the sources):
`egrep(path, expression)` reads the file line by line and collects, in
line order, the match object of every line the pattern matches.  The
first argument is the outcome of reading the path (`none` when the path
does not exist or is unreadable, in which case the standard I/O failure
propagates); the second is the matching function of the compiled pattern. -/
def egrep {μ : Type} (contents : Option (List String)) (tryMatch : String → Option μ) :
    Except IOFailure (List μ) :=
  match contents with
  | none => Except.error IOFailure.fileAccess
  | some lines => Except.ok (lines.filterMap tryMatch)

/-! Helper lemmas. -/

theorem uniqAux_sublist {α : Type} [DecidableEq α] (seen : List α) (l : List α) :
    (uniqAux seen l).Sublist l := by
  induction l generalizing seen with
  | nil => simp [uniqAux]
  | cons x xs ih =>
    simp only [uniqAux]
    split
    · exact (ih seen).cons x
    · exact (ih (x :: seen)).cons₂ x

theorem mem_uniqAux {α : Type} [DecidableEq α] (y : α) (seen : List α) (l : List α) :
    y ∈ uniqAux seen l ↔ y ∈ l ∧ y ∉ seen := by
  induction l generalizing seen with
  | nil => simp [uniqAux]
  | cons x xs ih =>
    simp only [uniqAux]
    split
    · rename_i hx
      rw [ih seen]
      constructor
      · rintro ⟨hm, hs⟩
        exact ⟨List.mem_cons_of_mem x hm, hs⟩
      · rintro ⟨hm, hs⟩
        rcases List.mem_cons.mp hm with rfl | hm2
        · exact absurd hx hs
        · exact ⟨hm2, hs⟩
    · rename_i hx
      constructor
      · intro hy
        rcases List.mem_cons.mp hy with rfl | hy2
        · exact ⟨List.mem_cons_self y xs, hx⟩
        · obtain ⟨hm, hs⟩ := (ih (x :: seen)).mp hy2
          exact ⟨List.mem_cons_of_mem x hm,
            fun hsn => hs (List.mem_cons_of_mem x hsn)⟩
      · rintro ⟨hm, hs⟩
        by_cases hyx : y = x
        · subst hyx
          exact List.mem_cons_self y _
        · rcases List.mem_cons.mp hm with rfl | hm2
          · exact absurd rfl hyx
          · refine List.mem_cons_of_mem x ((ih (x :: seen)).mpr ⟨hm2, ?_⟩)
            intro hsn
            rcases List.mem_cons.mp hsn with rfl | hsn2
            · exact hyx rfl
            · exact hs hsn2

theorem nodup_uniqAux {α : Type} [DecidableEq α] (seen : List α) (l : List α) :
    (uniqAux seen l).Nodup := by
  induction l generalizing seen with
  | nil => simp [uniqAux]
  | cons x xs ih =>
    simp only [uniqAux]
    split
    · exact ih seen
    · refine List.nodup_cons.mpr ⟨?_, ih (x :: seen)⟩
      intro hx
      exact ((mem_uniqAux x (x :: seen) xs).mp hx).2 (List.mem_cons_self x seen)

theorem uniqAux_eq_self {α : Type} [DecidableEq α] (seen : List α) (l : List α)
    (hnd : l.Nodup) (hdisj : ∀ x ∈ l, x ∉ seen) : uniqAux seen l = l := by
  induction l generalizing seen with
  | nil => rfl
  | cons x xs ih =>
    simp only [uniqAux]
    rw [if_neg (hdisj x (List.mem_cons_self x xs))]
    congr 1
    have hdisj2 : ∀ y ∈ xs, y ∉ x :: seen := by
      intro y hy hmem
      rcases List.mem_cons.mp hmem with rfl | hseen
      · exact (List.nodup_cons.mp hnd).1 hy
      · exact hdisj y (List.mem_cons_of_mem x hy) hseen
    exact ih (x :: seen) (List.nodup_cons.mp hnd).2 hdisj2

theorem uniqAux_eq_filter {α : Type} [DecidableEq α] (seen : List α) (l : List α) :
    uniqAux seen l = (uniqSpec l).filter (fun y => decide (y ∉ seen)) := by
  induction l generalizing seen with
  | nil => rfl
  | cons x xs ih =>
    simp only [uniqAux, uniqSpec]
    split
    · rename_i hx
      have hpx : decide (x ∉ seen) = false := by simp [hx]
      rw [List.filter_cons, hpx]
      simp only [Bool.false_eq_true, if_false]
      rw [List.filter_filter, ih seen]
      refine List.filter_congr ?_
      intro a _
      by_cases hax : a = x
      · subst hax
        simp [hx]
      · simp [hax]
    · rename_i hx
      have hpx : decide (x ∉ seen) = true := by simp [hx]
      rw [List.filter_cons, hpx]
      simp only [if_true]
      rw [List.filter_filter, ih (x :: seen)]
      congr 1
      refine List.filter_congr ?_
      intro a _
      by_cases hax : a = x
      · subst hax
        simp
      · by_cases has : a ∈ seen <;> simp [hax, has, List.mem_cons]

theorem uniq_eq_uniqSpec {α : Type} [DecidableEq α] (l : List α) :
    uniq l = uniqSpec l := by
  rw [uniq, uniqAux_eq_filter]
  refine Eq.trans (List.filter_congr ?_) (List.filter_true _)
  intro a _
  simp

theorem keepLine_eq (s : String) :
    keepLine s = (!(isBlank s) && !(isComment s)) := by
  unfold keepLine isBlank isComment
  cases s.toList with
  | nil => rfl
  | cons c cs => simp [bne]

theorem length_filterMap_eq {α β : Type} (f : α → Option β) (l : List α) :
    (l.filterMap f).length = (l.filter (fun a => (f a).isSome)).length := by
  induction l with
  | nil => rfl
  | cons x xs ih =>
    cases h : f x <;> simp [List.filterMap_cons, List.filter_cons, h, ih]

theorem pathMatches_append_last (xs : Path) (q : String) (f : Path)
    (h : pathMatches (xs ++ [q]) f = true) : lastComponentMatches q f = true := by
  induction xs generalizing f with
  | nil =>
    match f with
    | [] => simp [pathMatches] at h
    | c :: cs =>
      match cs with
      | [] =>
        simp only [List.nil_append, pathMatches, Bool.and_eq_true] at h
        simp [lastComponentMatches, h.1]
      | c2 :: cs2 => simp [pathMatches] at h
  | cons x xs ih =>
    match f with
    | [] => simp [pathMatches] at h
    | c :: cs =>
      simp only [List.cons_append, pathMatches, Bool.and_eq_true] at h
      have hlast := ih cs h.2
      match cs with
      | [] => simp [lastComponentMatches] at hlast
      | c2 :: cs2 =>
        rw [lastComponentMatches, List.getLast?_cons_cons]
        rw [lastComponentMatches] at hlast
        exact hlast

theorem mem_find_file (fs : List Path) (name : Path) (paths subpaths : List Path)
    (p : Path) :
    p ∈ find_file fs name paths subpaths ↔
      ∃ root ∈ uniq paths, ∃ sub ∈ subpaths,
        p ∈ fs ∧ pathMatches (root ++ sub ++ name) p = true := by
  simp only [find_file, glob, List.mem_flatMap, List.mem_filter]

theorem find_file_singleton_all (fs : List Path) (pat : String) (paths : List Path) :
    (find_file fs [pat] paths [[]]).all (lastComponentMatches pat) = true := by
  rw [List.all_eq_true]
  intro p hp
  obtain ⟨root, hr, sub, hs, hpfs, hm⟩ := (mem_find_file fs [pat] paths [[]] p).mp hp
  have hsub : sub = [] := by simpa using hs
  subst hsub
  simp only [List.append_nil] at hm
  exact pathMatches_append_last root pat p hm

/-! Claim theorems. -/

/-- C1: on every stream, `load_requirements` returns exactly the lines
stripped of surrounding whitespace, in original order, omitting the lines
that are empty after stripping and the lines whose first non-whitespace
character is `#`, with no deduplication (counts of kept lines are
preserved); the empty stream, and a stream of only blank and comment
lines, yield the empty list. -/
theorem C1_load_requirements_contract (lines : List String) :
    load_requirements [] = [] ∧
    load_requirements (lines.filter
      (fun l => isBlank (stripLine l) || isComment (stripLine l))) = [] ∧
    (load_requirements lines).Sublist (lines.map stripLine) ∧
    (∀ s : String, isBlank s = false → isComment s = false →
      (load_requirements lines).count s = (lines.map stripLine).count s) ∧
    (∀ s : String, (isBlank s || isComment s) = true →
      s ∉ load_requirements lines) := by
  refine ⟨rfl, ?_, List.filter_sublist _, ?_, ?_⟩
  · rw [load_requirements, List.filter_eq_nil_iff]
    intro a ha
    obtain ⟨l, hl, rfl⟩ := List.mem_map.mp ha
    have hbad := (List.mem_filter.mp hl).2
    rw [Bool.or_eq_true] at hbad
    rcases hbad with hb | hc
    · simp [keepLine_eq, hb]
    · simp [keepLine_eq, hc]
  · intro s hb hc
    rw [load_requirements]
    refine List.count_filter ?_
    rw [keepLine_eq, hb, hc]
    rfl
  · intro s hbc hmem
    rw [load_requirements] at hmem
    have hk := (List.mem_filter.mp hmem).2
    rw [keepLine_eq] at hk
    rw [Bool.or_eq_true] at hbc
    rcases hbc with hb | hc
    · rw [hb] at hk
      simp at hk
    · rw [hc] at hk
      simp at hk

theorem C1_witness :
    (load_requirements ["pkg-a", "pkg-a"]).count ("pkg-a") =
        ((["pkg-a", "pkg-a"]).map stripLine).count ("pkg-a") ∧
      ("#c") ∉ load_requirements [" #c ", "pkg-x"] :=
  ⟨(C1_load_requirements_contract ["pkg-a", "pkg-a"]).2.2.2.1 ("pkg-a")
      (by decide) (by decide),
    (C1_load_requirements_contract [" #c ", "pkg-x"]).2.2.2.2 ("#c") (by decide)⟩

/-- C2: `load_requirements` on the literal seven-line requirements stream
of the test returns exactly the four non-comment, non-blank stripped
lines. -/
theorem C2_load_requirements_example :
    load_requirements [" # this is my requirements file",
      "package-a >= 0.42", "package-b", "package-c",
      "#package-e #not to be included", "", "package-z"] =
    ["package-a >= 0.42", "package-b", "package-c", "package-z"] := by
  decide

/-- C3: `uniq` returns a sequence with no duplicates, containing exactly
the values of the input, equal to the declarative first-occurrence
deduplication `uniqSpec` (each distinct value once, in order of first
occurrence); the empty input yields the empty output and
`uniq [1,2,3,7,3,2] = [1,2,3,7]`. -/
theorem C3_uniq_first_occurrence :
    (∀ (α : Type) [DecidableEq α] (s : List α),
      (uniq s).Nodup ∧ (∀ x : α, x ∈ uniq s ↔ x ∈ s) ∧ uniq s = uniqSpec s) ∧
    uniq ([] : List Nat) = [] ∧ uniq [1, 2, 3, 7, 3, 2] = [1, 2, 3, 7] := by
  refine ⟨?_, rfl, by decide⟩
  intro α _ s
  refine ⟨nodup_uniqAux [] s, ?_, uniq_eq_uniqSpec s⟩
  intro x
  rw [uniq, mem_uniqAux]
  simp

theorem C3_witness :
    (uniq [1, 2, 3, 7, 3, 2]).Nodup ∧
      (7 ∈ uniq [1, 2, 3, 7, 3, 2] ↔ 7 ∈ [1, 2, 3, 7, 3, 2]) :=
  ⟨(C3_uniq_first_occurrence.1 Nat [1, 2, 3, 7, 3, 2]).1,
    (C3_uniq_first_occurrence.1 Nat [1, 2, 3, 7, 3, 2]).2.1 7⟩

/-- C4: for every sequence `x`, `uniq x` is a subsequence of `x`, and
`uniq` is idempotent. -/
theorem C4_uniq_subsequence_idempotent (α : Type) [DecidableEq α] (x : List α) :
    (uniq x).Sublist x ∧ uniq (uniq x) = uniq x := by
  refine ⟨uniqAux_sublist [] x, ?_⟩
  refine uniqAux_eq_self [] (uniq x) (nodup_uniqAux [] x) ?_
  intro y hy
  exact List.not_mem_nil y

theorem C4_witness :
    (uniq [1, 2, 3, 7, 3, 2]).Sublist [1, 2, 3, 7, 3, 2] ∧
      uniq (uniq [1, 2, 3, 7, 3, 2]) = uniq [1, 2, 3, 7, 3, 2] :=
  C4_uniq_subsequence_idempotent Nat [1, 2, 3, 7, 3, 2]

/-- C5: `find_header` is a thin specialization of `find_file`: on any
filesystem and any search roots, `find_header` on the header name
`blitz/array.h` returns the same list of paths as `find_file` on
`array.h` with subpath `include/blitz`. -/
theorem C5_find_header_refines_find_file (fs : List Path) (paths : List Path) :
    find_header fs ["blitz", "array.h"] paths [[]] =
      find_file fs ["array.h"] paths [["include", "blitz"]] := by
  simp [find_header, find_file]

theorem C5_witness :
    find_header [["usr", "include", "blitz", "array.h"]]
        ["blitz", "array.h"] [["usr"]] [[]] =
      find_file [["usr", "include", "blitz", "array.h"]]
        ["array.h"] [["usr"]] [["include", "blitz"]] :=
  C5_find_header_refines_find_file [["usr", "include", "blitz", "array.h"]] [["usr"]]

/-- C6: for every input, each finder represents "not found" as the empty
list (and, being a total function of its model arguments, never raises):
the result is empty exactly when no filesystem entry matches any candidate
pattern. -/
theorem C6_not_found_empty_list (fs : List Path) (name : Path)
    (paths subpaths : List Path) (libname : String) (version : Option String) :
    (find_file fs name paths subpaths = [] ↔
      ∀ root ∈ uniq paths, ∀ sub ∈ subpaths, ∀ f ∈ fs,
        pathMatches (root ++ sub ++ name) f = false) ∧
    (find_header fs name paths subpaths = [] ↔
      ∀ root ∈ uniq paths, ∀ sub ∈ subpaths, ∀ f ∈ fs,
        pathMatches (root ++ ("include" :: sub) ++ name) f = false) ∧
    (find_library fs libname version paths = [] ↔
      ∀ pat ∈ libraryNamePatterns libname version, ∀ root ∈ uniq paths, ∀ f ∈ fs,
        pathMatches (root ++ [pat]) f = false) := by
  refine ⟨?_, ?_, ?_⟩ <;>
    simp [find_file, find_header, find_library, glob,
      List.flatMap_eq_nil_iff, List.filter_eq_nil_iff, List.forall_mem_map]

theorem C6_witness :
    find_file [["usr", "include", "other.h"]] ["array.h"] [["usr"]] [[]] = [] ∧
    find_header [["usr", "include", "other.h"]] ["array.h"] [["usr"]] [[]] = [] ∧
    find_library [["usr", "lib", "libother.so"]] ("blitz") none [["usr", "lib"]] = [] := by
  obtain ⟨h1, h2, h3⟩ := C6_not_found_empty_list [["usr", "include", "other.h"]]
    ["array.h"] [["usr"]] [[]] ("blitz") none
  refine ⟨h1.mpr (by decide), h2.mpr (by decide), ?_⟩
  obtain ⟨_, _, h3l⟩ := C6_not_found_empty_list [["usr", "lib", "libother.so"]]
    ["array.h"] [["usr"]] [[]] ("blitz") none
  exact h3l.mpr (by decide)

/-- C7: `egrep` collects, in line order, the match object of every line
the pattern matches (so its number of results is the number of matching
lines); it returns the empty list when the file is empty or no line
matches, and an unreadable or missing path propagates the standard I/O
failure unchanged. -/
theorem C7_egrep_contract (μ : Type) (tryMatch : String → Option μ)
    (lines : List String) :
    egrep none tryMatch = Except.error IOFailure.fileAccess ∧
    egrep (some ([] : List String)) tryMatch = Except.ok [] ∧
    egrep (some (lines.filter (fun l => (tryMatch l).isNone))) tryMatch =
      Except.ok [] ∧
    egrep (some lines) tryMatch = Except.ok (lines.filterMap tryMatch) ∧
    (lines.filterMap tryMatch).length =
      (lines.filter (fun l => (tryMatch l).isSome)).length := by
  have h : (lines.filter (fun l => (tryMatch l).isNone)).filterMap tryMatch = [] := by
    rw [List.filterMap_eq_nil_iff]
    intro a ha
    exact Option.isNone_iff_eq_none.mp (List.mem_filter.mp ha).2
  exact ⟨rfl, rfl, by simp [egrep, h], rfl, length_filterMap_eq tryMatch lines⟩

/-- C8: with a version argument, `find_library` searches only the filename
variant of the exact version: the synthesized pattern list is exactly the
version-suffixed shared-object name, contains neither the unversioned
static nor the unversioned shared name, and the search delegates to the
generic finder on that single pattern (no automatic unversioned
fallback). -/
theorem C8_version_exact_no_fallback (n v : String) (fs paths : List Path) :
    libraryNamePatterns n (some v) = [sharedVersionedLibName n v] ∧
    (libraryNamePatterns n (some v)).contains (staticLibName n) = false ∧
    (libraryNamePatterns n (some v)).contains (sharedLibName n) = false ∧
    find_library fs n (some v) paths =
      find_file fs [sharedVersionedLibName n v] paths [[]] := by
  have e1 : ("lib").length = 3 := by decide
  have e2 : (".a").length = 2 := by decide
  have e3 : (".so").length = 3 := by decide
  have e4 : (".so.").length = 4 := by decide
  have hlen1 : staticLibName n ≠ sharedVersionedLibName n v := by
    intro h
    have h2 := congrArg String.length h
    simp [staticLibName, sharedVersionedLibName, String.length_append,
      e1, e2, e4] at h2
    omega
  have hlen2 : sharedLibName n ≠ sharedVersionedLibName n v := by
    intro h
    have h2 := congrArg String.length h
    simp [sharedLibName, sharedVersionedLibName, String.length_append,
      e1, e3, e4] at h2
    omega
  refine ⟨rfl, ?_, ?_, ?_⟩
  · simp [libraryNamePatterns, List.contains, hlen1]
  · simp [libraryNamePatterns, List.contains, hlen2]
  · simp [find_library, libraryNamePatterns]

theorem C8_witness :
    libraryNamePatterns ("boost_system") (some ("1.55.0")) =
        [sharedVersionedLibName ("boost_system") ("1.55.0")] ∧
      (libraryNamePatterns ("boost_system") (some ("1.55.0"))).contains
        (staticLibName ("boost_system")) = false :=
  ⟨(C8_version_exact_no_fallback ("boost_system") ("1.55.0") [] []).1,
    (C8_version_exact_no_fallback ("boost_system") ("1.55.0") [] []).2.1⟩

/-- C9: `find_library` concatenates candidate results with static-library
matches before shared-library matches, and version-exact matches before
unversioned matches (a versioned call contributes only version-exact
results, with no unversioned results after them): the unversioned result
is the static-pattern results followed by the shared-pattern results, and
the filename of every returned path matches the pattern of its segment. -/
theorem C9_find_library_order (fs : List Path) (n v : String) (paths : List Path) :
    find_library fs n none paths =
      find_file fs [staticLibName n] paths [[]] ++
        find_file fs [sharedLibName n] paths [[]] ∧
    find_library fs n (some v) paths =
      find_file fs [sharedVersionedLibName n v] paths [[]] ∧
    (find_file fs [staticLibName n] paths [[]]).all
      (lastComponentMatches (staticLibName n)) = true ∧
    (find_file fs [sharedLibName n] paths [[]]).all
      (lastComponentMatches (sharedLibName n)) = true ∧
    (find_library fs n (some v) paths).all
      (lastComponentMatches (sharedVersionedLibName n v)) = true := by
  have h2 : find_library fs n (some v) paths =
      find_file fs [sharedVersionedLibName n v] paths [[]] := by
    simp [find_library, libraryNamePatterns]
  refine ⟨by simp [find_library, libraryNamePatterns], h2,
    find_file_singleton_all fs (staticLibName n) paths,
    find_file_singleton_all fs (sharedLibName n) paths, ?_⟩
  rw [h2]
  exact find_file_singleton_all fs (sharedVersionedLibName n v) paths

/-- C10: `find_file` and `find_header` are deterministic: with the
filesystem state fixed, two calls whose arguments are equal return equal
lists, the result being a function of the arguments and the filesystem
contents only. -/
theorem C10_finders_deterministic (fs : List Path) (name name2 : Path)
    (paths subpaths paths2 subpaths2 : List Path)
    (hn : name = name2) (hp : paths = paths2) (hs : subpaths = subpaths2) :
    find_file fs name paths subpaths = find_file fs name2 paths2 subpaths2 ∧
      find_header fs name paths subpaths = find_header fs name2 paths2 subpaths2 := by
  subst hn hp hs
  exact ⟨rfl, rfl⟩

theorem C10_witness :
    find_file [["usr", "include", "array.h"]] ["array.h"] [["usr", "include"]] [[]] =
        find_file [["usr", "include", "array.h"]] ["array.h"] [["usr", "include"]] [[]] ∧
      find_header [["usr", "include", "array.h"]] ["array.h"] [["usr", "include"]] [[]] =
        find_header [["usr", "include", "array.h"]] ["array.h"] [["usr", "include"]] [[]] :=
  C10_finders_deterministic [["usr", "include", "array.h"]] ["array.h"] ["array.h"]
    [["usr", "include"]] [[]] [["usr", "include"]] [[]] rfl rfl rfl

end BobExtension
